import Mathlib

/-!
Verification of the ncpol2sdpa SDP-relaxation construction engine.

This file gives a shallow embedding of the relaxation-building code of
`ncpol2sdpa` (files `sdp_relaxation.py`, `sdprelaxation.py`, `sdpa_utils.py`)
and proves properties of the embedded definitions.

Modelling conventions:
* an operator monomial is a word over variable letters (`Word := List ℕ`);
  the adjoint of a word of Hermitian letters reverses it; a product
  concatenates; the empty word is the unit monomial `1`;
* scalar coefficients are rationals (`ℚ`), standing for the exact numeric
  values the Python code manipulates;
* the sparse structure `F_struct` is a total function `ℕ → ℕ → ℚ` from
  (flattened row, column) to the stored value, `0` meaning an absent entry;
  a `lil_matrix` item assignment becomes a pointwise functional update;
* Python dicts keyed by monomials (`monomial_index`, `moment_substitutions`,
  substitution rules) become association lists with insertion-order append
  and front-to-back lookup.

Helper routines that live in `nc_utils.py` / `solver_common.py` (files not
part of the provided sources) are modelled from the specification where
needed; each such definition carries a doc comment starting with
`Modelled from the spec:`.
-/

/-- A monomial: an ordered word of variable letters.  The empty word is the
unit monomial `1`. -/
abbrev Word := List ℕ

/-- Adjoint of a monomial of Hermitian letters: the reversed word
(`Dagger(x*y) = y*x`). -/
def adjW (w : Word) : Word := w.reverse

/-- Front-to-back lookup in an association list; this is the embedding of a
Python dict lookup (keys are unique because entries are only appended when
absent). -/
def lookupW {α : Type} : List (Word × α) → Word → Option α
  | [], _ => none
  | (k, v) :: rest, w => if k = w then some v else lookupW rest w

/-- Embedding of `SdpRelaxation._process_monomial` (sdp_relaxation.py,
lines 238-259).  Given the `moment_substitutions` dict, the current
`monomial_index` and `n_vars`, and a monomial already separated as
coefficient `coeff` times word `w`: a moment-substituted monomial maps to the
constant column `0` with the coefficient scaled; a monomial already in the
index reuses its id; an unseen monomial is assigned id `n_vars + 1` and is
appended to the index.  Returns `((k, coeff), new index)`. -/
def processMonomial (msub : List (Word × ℚ)) (index : List (Word × ℕ))
    (n_vars : ℕ) (w : Word) (coeff : ℚ) : (ℕ × ℚ) × List (Word × ℕ) :=
  match lookupW msub w with
  | some c2 => ((0, coeff * c2), index)
  | none =>
    match lookupW index w with
    | some k => ((k, coeff), index)
    | none => ((n_vars + 1, coeff), index ++ [(w, n_vars + 1)])

/-- The mutable state threaded through moment-matrix generation:
the sparse structure `F`, the variable counter `n_vars` and the
`monomial_index`. -/
structure PushState where
  F : ℕ → ℕ → ℚ
  n_vars : ℕ
  index : List (Word × ℕ)

/-- Item assignment `F[r, c] = v` on the sparse structure. -/
def setF (F : ℕ → ℕ → ℚ) (r c : ℕ) (v : ℚ) : ℕ → ℕ → ℚ :=
  fun r' c' => if r' = r ∧ c' = c then v else F r' c'

/-- Additive update `F[r, c] += v` used by `__push_facvar_sparse`. -/
def addF (F : ℕ → ℕ → ℚ) (r c : ℕ) (v : ℚ) : ℕ → ℕ → ℚ :=
  fun r' c' => if r' = r ∧ c' = c then F r c + v else F r' c'

/-- The flattened row index used by `_push_monomial`:
`row_offset + rowA*N*lenB + rowB*N + columnA*lenB + columnB`. -/
def rowIndex (row_offset rowA columnA N rowB columnB lenB : ℕ) : ℕ :=
  row_offset + rowA * N * lenB + rowB * N + columnA * lenB + columnB

/-- Embedding of the numeric branch of `_push_monomial` (sdp_relaxation.py,
lines 266-281): a numeric value `c` at flattened row `row`.  At the top-left
cell (`rowA = columnA = rowB = columnB = 0`) with value exactly `1`, the
`normalized` flag decides between fixing the constant column to `1` and
creating a fresh free variable; every other numeric value goes to the
constant column. -/
def pushNum (normalized : Bool) (s : PushState) (c : ℚ)
    (row rowA columnA rowB columnB : ℕ) : PushState :=
  if rowA = 0 ∧ columnA = 0 ∧ rowB = 0 ∧ columnB = 0 ∧ c = 1 then
    if ¬ normalized then
      { s with n_vars := s.n_vars + 1, F := setF s.F row (s.n_vars + 1) 1 }
    else
      { s with F := setF s.F row 0 1 }
  else
    { s with F := setF s.F row 0 c }

/-- Embedding of the symbolic-monomial branch of `_push_monomial`
(sdp_relaxation.py, lines 287-294): process the monomial through
`_process_monomial`, write the coefficient at column `k`, and raise
`n_vars` to `k` when a new variable was created (`if k > n_vars`). -/
def pushMonoT (msub : List (Word × ℚ)) (s : PushState) (c : ℚ) (w : Word)
    (row : ℕ) : PushState :=
  let r := processMonomial msub s.index s.n_vars w c
  { F := setF s.F row r.1.1 r.1.2
    n_vars := max s.n_vars r.1.1
    index := r.2 }

/-- A SymPy expression as it reaches `_push_monomial` after substitutions:
a plain number, a scalar multiple of a word, or a sum of such terms
(`as_ordered_terms` of an `Add`; a term with the empty word is a number). -/
inductive MExpr where
  | num (c : ℚ)
  | mono (c : ℚ) (w : Word)
  | addE (ts : List (ℚ × Word))
deriving DecidableEq

/-- Embedding of `SdpRelaxation._push_monomial` (sdp_relaxation.py, lines
261-295) on an already-substituted expression: numbers go through the
numeric branch, sums are pushed term by term, a monomial goes through
`_process_monomial`. -/
def pushMonomial (normalized : Bool) (msub : List (Word × ℚ)) (s : PushState)
    (m : MExpr) (row_offset rowA columnA N rowB columnB lenB : ℕ) : PushState :=
  let row := rowIndex row_offset rowA columnA N rowB columnB lenB
  match m with
  | .num c => pushNum normalized s c row rowA columnA rowB columnB
  | .mono c w =>
    if w = [] then pushNum normalized s c row rowA columnA rowB columnB
    else pushMonoT msub s c w row
  | .addE ts =>
    ts.foldl (fun st p =>
      if p.2 = [] then pushNum normalized st p.1 row rowA columnA rowB columnB
      else pushMonoT msub st p.1 p.2 row) s

/-- A moment-matrix cell together with its computed monomial: the indices
`(rowA, columnA, rowB, columnB)` and the canonical word of the product. -/
structure MomentEntry where
  rowA : ℕ
  columnA : ℕ
  rowB : ℕ
  columnB : ℕ
  word : Word
deriving DecidableEq

/-- Convert an entry's word to the expression pushed for it: the empty word
is the unit monomial, i.e. the number `1`. -/
def entryExpr (w : Word) : MExpr :=
  if w = [] then .num 1 else .mono 1 w

/-- Push a list of computed moment-matrix entries into the state, in order,
exactly as the traversal loop of `_generate_moment_matrix` feeds
`_push_monomial`. -/
def pushAll (normalized : Bool) (msub : List (Word × ℚ))
    (row_offset N lenB : ℕ) (s : PushState) (es : List MomentEntry) : PushState :=
  es.foldl (fun st e =>
    pushMonomial normalized msub st (entryExpr e.word)
      row_offset e.rowA e.columnA N e.rowB e.columnB lenB) s

/-- The id-assignment trace of the moment-matrix push loop: for each
monomial word in order, the id returned by `_process_monomial` and the
resulting `(monomial_index, n_vars)` state, with `n_vars` raised as in
`_push_monomial`. -/
def momentIds (msub : List (Word × ℚ)) (index : List (Word × ℕ))
    (n_vars : ℕ) : List Word → List ℕ × List (Word × ℕ) × ℕ
  | [] => ([], index, n_vars)
  | w :: ws =>
    let r := processMonomial msub index n_vars w 1
    let rest := momentIds msub r.2 (max n_vars r.1.1) ws
    (r.1.1 :: rest.1, rest.2)

/-- Well-formedness of the `(monomial_index, n_vars)` pair: every recorded
id is positive and at most `n_vars`, and the map is injective (distinct
monomials have distinct ids) with unique keys. -/
def WFIdx (index : List (Word × ℕ)) (n_vars : ℕ) : Prop :=
  (∀ p ∈ index, 0 < p.2 ∧ p.2 ≤ n_vars) ∧
  (∀ p ∈ index, ∀ q ∈ index, p.2 = q.2 → p.1 = q.1) ∧
  index.Pairwise (fun p q => p.1 ≠ q.1)

theorem lookupW_append_some {α : Type} (l l2 : List (Word × α)) (w : Word)
    (v : α) (h : lookupW l w = some v) : lookupW (l ++ l2) w = some v := by
  induction l with
  | nil => simp [lookupW] at h
  | cons p rest ih =>
    simp only [lookupW, List.cons_append] at h ⊢
    by_cases hp : p.1 = w
    · simpa [hp] using h
    · simp [hp] at h ⊢
      exact ih h

theorem lookupW_append_one {α : Type} (l : List (Word × α)) (p : Word × α)
    (w : Word) (h : lookupW l w = none) :
    lookupW (l ++ [p]) w = if p.1 = w then some p.2 else none := by
  induction l with
  | nil => simp [lookupW]
  | cons q rest ih =>
    simp only [lookupW, List.cons_append] at h ⊢
    by_cases hq : q.1 = w
    · simp [hq] at h
    · simp [hq] at h ⊢
      exact ih h

theorem lookupW_none_forall {α : Type} (l : List (Word × α)) (w : Word)
    (h : lookupW l w = none) : ∀ p ∈ l, p.1 ≠ w := by
  induction l with
  | nil => simp
  | cons q rest ih =>
    simp only [lookupW] at h
    by_cases hq : q.1 = w
    · simp [hq] at h
    · intro p hp
      rcases List.mem_cons.mp hp with hp | hp
      · rw [hp]; exact hq
      · exact ih (by simpa [hq] using h) p hp

theorem lookupW_some_mem {α : Type} (l : List (Word × α)) (w : Word) (v : α)
    (h : lookupW l w = some v) : (w, v) ∈ l := by
  induction l with
  | nil => simp [lookupW] at h
  | cons q rest ih =>
    simp only [lookupW] at h
    by_cases hq : q.1 = w
    · have hv : q.2 = v := by simpa [hq] using h
      have : (w, v) = q := by
        calc (w, v) = (q.1, q.2) := by rw [hq, hv]
          _ = q := rfl
      rw [this]
      exact List.mem_cons_self q rest
    · exact List.mem_cons.mpr (Or.inr (ih (by simpa [hq] using h)))

/-- The `(index, n_vars)` state after the push loop only ever extends the
monomial index: an id already recorded for a monomial is still recorded,
unchanged, at the end of the loop. -/
theorem momentIds_lookup_mono (msub : List (Word × ℚ)) :
    ∀ (ws : List Word) (index : List (Word × ℕ)) (n_vars : ℕ) (w : Word)
      (k : ℕ), lookupW index w = some k →
      lookupW (momentIds msub index n_vars ws).2.1 w = some k := by
  intro ws
  induction ws with
  | nil => intro index n_vars w k h; simpa [momentIds] using h
  | cons v rest ih =>
    intro index n_vars w k h
    simp only [momentIds]
    unfold processMonomial
    cases hm : lookupW msub v with
    | some c2 => exact ih index _ w k h
    | none =>
      cases hv : lookupW index v with
      | some k2 => exact ih index _ w k h
      | none =>
        exact ih _ _ w k (lookupW_append_some index _ w k h)

/-- Length of the id-assignment trace. -/
theorem momentIds_length (msub : List (Word × ℚ)) :
    ∀ (ws : List Word) (index : List (Word × ℕ)) (n_vars : ℕ),
      (momentIds msub index n_vars ws).1.length = ws.length := by
  intro ws
  induction ws with
  | nil => intro index n_vars; simp [momentIds]
  | cons v rest ih => intro index n_vars; simp [momentIds, ih]

/-- The id a position receives, characterized by the final monomial index:
`0` for a moment-substituted monomial, otherwise the id the final index
records for the word.  This is what makes equal words collapse to equal
ids. -/
def charK (msub : List (Word × ℚ)) (index : List (Word × ℕ)) (w : Word) : ℕ :=
  match lookupW msub w with
  | some _ => 0
  | none => (lookupW index w).getD 0

theorem momentIds_char (msub : List (Word × ℚ)) :
    ∀ (ws : List Word) (index : List (Word × ℕ)) (n_vars : ℕ) (i : ℕ),
      i < ws.length →
      (momentIds msub index n_vars ws).1.getD i 0 =
        charK msub (momentIds msub index n_vars ws).2.1 (ws.getD i []) := by
  intro ws
  induction ws with
  | nil => intro index n_vars i hi; simp at hi
  | cons v rest ih =>
    intro index n_vars i hi
    match i with
    | 0 =>
      simp only [momentIds, List.getD_cons_zero, charK]
      unfold processMonomial
      cases hm : lookupW msub v with
      | some c2 => simp [hm]
      | none =>
        simp only [hm]
        cases hv : lookupW index v with
        | some k =>
          have := momentIds_lookup_mono msub rest index (max n_vars k) v k hv
          simp [hv, this]
        | none =>
          have hbase : lookupW (index ++ [(v, n_vars + 1)]) v = some (n_vars + 1) := by
            rw [lookupW_append_one index _ v hv]; simp
          have hmx := momentIds_lookup_mono msub rest (index ++ [(v, n_vars + 1)])
            (max n_vars (n_vars + 1)) v (n_vars + 1) hbase
          rw [Nat.max_eq_right (Nat.le_succ n_vars)] at hmx
          simp [hv, hmx]
    | Nat.succ j =>
      have hj : j < rest.length := by simpa using hi
      simp only [momentIds, List.getD_cons_succ]
      unfold processMonomial
      cases hm : lookupW msub v with
      | some c2 => exact ih index _ j hj
      | none =>
        cases hv : lookupW index v with
        | some k => exact ih index _ j hj
        | none => exact ih _ _ j hj

/-- One iteration of the push loop preserves well-formedness of the
monomial index. -/
theorem WFIdx_step (msub : List (Word × ℚ)) (index : List (Word × ℕ))
    (n_vars : ℕ) (w : Word) (coeff : ℚ) (hwf : WFIdx index n_vars) :
    WFIdx (processMonomial msub index n_vars w coeff).2
      (max n_vars (processMonomial msub index n_vars w coeff).1.1) := by
  obtain ⟨hbd, hinj, hpw⟩ := hwf
  unfold processMonomial
  cases hm : lookupW msub w with
  | some c2 => exact ⟨by simpa using hbd, by simpa using hinj, by simpa using hpw⟩
  | none =>
    cases hv : lookupW index w with
    | some k =>
      have hk : k ≤ n_vars := (hbd _ (lookupW_some_mem index w k hv)).2
      rw [Nat.max_eq_left hk]
      exact ⟨hbd, hinj, hpw⟩
    | none =>
      simp only
      rw [Nat.max_eq_right (Nat.le_succ n_vars)]
      refine ⟨?_, ?_, ?_⟩
      · intro p hp
        rcases List.mem_append.mp hp with hp | hp
        · exact ⟨(hbd p hp).1, le_trans (hbd p hp).2 (Nat.le_succ _)⟩
        · simp at hp
          simp [hp]
      · intro p hp q hq hpq
        rcases List.mem_append.mp hp with hp | hp <;>
          rcases List.mem_append.mp hq with hq | hq
        · exact hinj p hp q hq hpq
        · simp at hq
          rw [hq] at hpq
          simp at hpq
          have := (hbd p hp).2
          omega
        · simp at hp
          rw [hp] at hpq
          simp at hpq
          have := (hbd q hq).2
          omega
        · simp at hp hq
          rw [hp, hq]
      · rw [List.pairwise_append]
        refine ⟨hpw, by simp, ?_⟩
        intro p hp q hq
        simp at hq
        rw [hq]
        exact lookupW_none_forall index w hv p hp

/-- The push loop preserves well-formedness of the monomial index. -/
theorem WFIdx_momentIds (msub : List (Word × ℚ)) :
    ∀ (ws : List Word) (index : List (Word × ℕ)) (n_vars : ℕ),
      WFIdx index n_vars →
      WFIdx (momentIds msub index n_vars ws).2.1
        (momentIds msub index n_vars ws).2.2 := by
  intro ws
  induction ws with
  | nil => intro index n_vars h; simpa [momentIds] using h
  | cons v rest ih =>
    intro index n_vars h
    simp only [momentIds]
    exact ih _ _ (WFIdx_step msub index n_vars v 1 h)

/-- C1: processing monomials while building the moment matrix maintains the
monomial index as an incremental bijection: the first occurrence of a
canonical monomial (not already moment-substituted or indexed) is assigned
variable id `n_vars + 1` with `n_vars` incremented to it; a subsequent
occurrence of an equal canonical monomial returns the previously assigned id
and leaves the index unchanged; consequently any two distinct positions of
the processed cell sequence whose canonical monomials are equal receive the
same variable id; and well-formedness (ids injective and bounded by
`n_vars`) is preserved throughout. -/
theorem monomial_index_incremental_bijection
    (msub : List (Word × ℚ)) (index : List (Word × ℕ)) (n_vars : ℕ)
    (ws : List Word) (hwf : WFIdx index n_vars) :
    (∀ w coeff, lookupW msub w = none → lookupW index w = none →
        processMonomial msub index n_vars w coeff
          = ((n_vars + 1, coeff), index ++ [(w, n_vars + 1)]) ∧
        momentIds msub index n_vars [w]
          = ([n_vars + 1], index ++ [(w, n_vars + 1)], n_vars + 1)) ∧
    (∀ w coeff k, lookupW msub w = none → lookupW index w = some k →
        processMonomial msub index n_vars w coeff = ((k, coeff), index)) ∧
    (∀ i j : ℕ, i < ws.length → j < ws.length →
        ws.getD i [] = ws.getD j [] →
        (momentIds msub index n_vars ws).1.getD i 0
          = (momentIds msub index n_vars ws).1.getD j 0) ∧
    WFIdx (momentIds msub index n_vars ws).2.1
      (momentIds msub index n_vars ws).2.2 := by
  refine ⟨?_, ?_, ?_, ?_⟩
  · intro w coeff h1 h2
    constructor
    · unfold processMonomial
      rw [h1, h2]
    · unfold momentIds
      unfold processMonomial
      rw [h1, h2]
      simp [momentIds, Nat.max_eq_right (Nat.le_succ n_vars)]
  · intro w coeff k h1 h2
    unfold processMonomial
    rw [h1, h2]
  · intro i j hi hj heq
    rw [momentIds_char msub ws index n_vars i hi,
        momentIds_char msub ws index n_vars j hj, heq]
  · exact WFIdx_momentIds msub ws index n_vars hwf

/-- Witness for C1 at a concrete input: an empty starting index and the
word sequence `[x, y, x]`; positions 0 and 2 carry the same word and the
theorem yields equal assigned ids, which evaluate to `1`. -/
theorem monomial_index_incremental_bijection_witness :
    WFIdx ([] : List (Word × ℕ)) 0 ∧
    (momentIds [] [] 0 [[0], [1], [0]]).1.getD 0 0
      = (momentIds [] [] 0 [[0], [1], [0]]).1.getD 2 0 ∧
    (momentIds [] [] 0 [[0], [1], [0]]).1 = [1, 2, 1] := by
  have hwf : WFIdx ([] : List (Word × ℕ)) 0 :=
    ⟨by simp, by simp, List.Pairwise.nil⟩
  refine ⟨hwf, ?_, by decide⟩
  exact (monomial_index_incremental_bijection [] [] 0 [[0], [1], [0]]
    hwf).2.2.1 0 2 (by decide) (by decide) (by decide)

/-- The monomial computed for a moment-matrix cell
(`_generate_moment_matrix`, sdp_relaxation.py lines 321-330):
`adjoint(A[rowA]) * A[columnA] * adjoint(B[rowB]) * B[columnB]`, with the
last two factors swapped when the `ppt` flag is set and `columnB < rowB`. -/
def entryMonomial (A B : List Word) (ppt : Bool)
    (rowA columnA rowB columnB : ℕ) : Word :=
  if (¬ ppt) ∨ (rowB ≤ columnB) then
    adjW (A.getD rowA []) ++ A.getD columnA [] ++
      adjW (B.getD rowB []) ++ B.getD columnB []
  else
    adjW (A.getD rowA []) ++ A.getD columnA [] ++
      adjW (B.getD columnB []) ++ B.getD rowB []

/-- The sequential traversal of `_generate_moment_matrix` (sdp_relaxation.py
lines 313-335): `rowA`, then `columnA ≥ rowA`, then `rowB`, then
`columnB ≥ start_columnB` where `start_columnB = rowB` on the diagonal
`rowA = columnA` and `0` otherwise; each visited cell yields its computed
monomial with substitutions (`subst`) applied, in visit order. -/
def seqMomentEntries (subst : Word → Word) (A B : List Word) (ppt : Bool) :
    List MomentEntry :=
  (List.range A.length).flatMap fun rowA =>
    (List.range' rowA (A.length - rowA)).flatMap fun columnA =>
      (List.range B.length).flatMap fun rowB =>
        let start := if rowA = columnA then rowB else 0
        (List.range' start (B.length - start)).map fun columnB =>
          ⟨rowA, columnA, rowB, columnB,
            subst (entryMonomial A B ppt rowA columnA rowB columnB)⟩

/-- The body of the worker loop in `assemble_monomial_and_do_substitutions`
(sdp_relaxation.py lines 1318-1340): for each `columnB` of the range the
loop computes the cell monomial and applies the substitutions, overwriting
the loop variables each iteration. -/
def workerComputed (subst : Word → Word) (A B : List Word) (ppt : Bool)
    (rowA columnA rowB : ℕ) : List (ℕ × Word) :=
  let start := if rowA = columnA then rowB else 0
  (List.range' start (B.length - start)).map fun columnB =>
    (columnB, subst (entryMonomial A B ppt rowA columnA rowB columnB))

/-- Embedding of `assemble_monomial_and_do_substitutions`: the function's
single `return` statement sits after the `for columnB` loop, so only the
values of `columnB` and `monomial` left by the loop's final iteration are
returned (`none` when the loop body never ran). -/
def assembleMonomialAndDoSubstitutions (subst : Word → Word)
    (A B : List Word) (ppt : Bool) (rowA columnA rowB : ℕ) :
    Option MomentEntry :=
  match (workerComputed subst A B ppt rowA columnA rowB).getLast? with
  | some cw => some ⟨rowA, columnA, rowB, cw.1, cw.2⟩
  | none => none

/-- The parallel traversal of `_generate_moment_matrix` (sdp_relaxation.py
lines 343-371): the coordinator consumes worker results in the order of the
generator `(rowA, columnA, rowB) for rowA ... for rowB ... for columnA`
(`pool.imap` preserves that order) and pushes each returned entry. -/
def parMomentEntries (subst : Word → Word) (A B : List Word) (ppt : Bool) :
    List MomentEntry :=
  (List.range A.length).flatMap fun rowA =>
    (List.range B.length).flatMap fun rowB =>
      (List.range' rowA (A.length - rowA)).filterMap fun columnA =>
        assembleMonomialAndDoSubstitutions subst A B ppt rowA columnA rowB

/-- C2 (failing-input evaluation): with bases `A = [x]`, `B = [y, z]`, no
substitutions and `ppt` off, the sequential path visits three cells and
creates three SDP variables, while the parallel path receives only the last
`columnB` entry from each worker call, visits two cells, creates two
variables, and builds a different monomial index — the parallel path does
not reproduce the sequential numbering or F entries. -/
theorem parallel_momentmatrix_differs_from_sequential :
    seqMomentEntries (fun w => w) [[0]] [[1], [2]] false
      ≠ parMomentEntries (fun w => w) [[0]] [[1], [2]] false ∧
    (pushAll true [] 0 2 2 ⟨fun _ _ => 0, 0, []⟩
      (seqMomentEntries (fun w => w) [[0]] [[1], [2]] false)).n_vars = 3 ∧
    (pushAll true [] 0 2 2 ⟨fun _ _ => 0, 0, []⟩
      (parMomentEntries (fun w => w) [[0]] [[1], [2]] false)).n_vars = 2 ∧
    (pushAll true [] 0 2 2 ⟨fun _ _ => 0, 0, []⟩
      (seqMomentEntries (fun w => w) [[0]] [[1], [2]] false)).index
      ≠ (pushAll true [] 0 2 2 ⟨fun _ _ => 0, 0, []⟩
          (parMomentEntries (fun w => w) [[0]] [[1], [2]] false)).index := by
  refine ⟨by decide, ?_, ?_, by decide⟩ <;> decide

/-- Cumulative row offset of block `n`: the sum of `block_size ** 2` over
the preceding entries of `block_struct` (the bookkeeping used throughout
sdp_relaxation.py, e.g. lines 307-309, 509-510, 657-659, 912-913). -/
def rowOffsetUpTo (block_struct : List ℤ) (n : ℕ) : ℕ :=
  ((block_struct.take n).map (fun b => (b * b).toNat)).sum

/-- The slice assignment
`F[destRow, colStart:colStart+count] = F[srcRow, 0:count]` on the sparse
structure. -/
def assignRowSlice (F : ℕ → ℕ → ℚ) (destRow colStart count srcRow : ℕ) :
    ℕ → ℕ → ℚ :=
  fun r c =>
    if r = destRow ∧ colStart ≤ c ∧ c < colStart + count then
      F srcRow (c - colStart)
    else F r c

/-- The row loop of `__duplicate_momentmatrix`: one slice assignment per
row of the copied block. -/
def dupFoldAux (F : ℕ → ℕ → ℚ) (row_offset colStart count : ℕ)
    (rows : List ℕ) : ℕ → ℕ → ℚ :=
  rows.foldl (fun Fc row => assignRowSlice Fc (row_offset + row) colStart count row) F

/-- Embedding of `SdpRelaxation.__duplicate_momentmatrix` (sdp_relaxation.py,
lines 655-665): for every `row` in `range(width**2)` it copies
`F[row, 0:original_n_vars+1]` into
`F[row_offset + row, n_vars+1 : n_vars+original_n_vars+2]`, then returns
`(n_vars + original_n_vars + 1, block_index + 1)`. -/
def duplicateMomentmatrix (F : ℕ → ℕ → ℚ) (block_struct : List ℤ)
    (original_n_vars n_vars block_index : ℕ) : (ℕ → ℕ → ℚ) × ℕ × ℕ :=
  let row_offset := rowOffsetUpTo block_struct block_index
  let width := (block_struct.headD 0).toNat
  (dupFoldAux F row_offset (n_vars + 1) (original_n_vars + 1)
      (List.range (width * width)),
    n_vars + original_n_vars + 1, block_index + 1)

/-- The extra-moment-matrix part of `_calculate_block_structure`
(sdp_relaxation.py, lines 770-782): the principal blocks get the monomial
set sizes, and each requested extra moment matrix appends those same sizes
again. -/
def blockStructWithExtras (setSizes : List ℕ) (n_extras : ℕ) : List ℕ :=
  setSizes ++ (List.replicate n_extras setSizes).flatten

/-- A concrete principal-block sparse structure: the single moment cell
(flattened row `0`) holds coefficient `1` at variable column `1`. -/
def dupFex : ℕ → ℕ → ℚ := fun r c => if r = 0 ∧ c = 1 then 1 else 0

/-- C3 (counterexample): with block structure `[1, 1]`, one original
variable and `n_vars = 1`, the copied block's cell does not carry the
original entry at the same variable id — column `1` of the copied row is
`0` although column `1` of the principal row is `1`; the value was instead
written to the shifted fresh column `n_vars + 1 + 1 = 3`.  The copy is not
a duplicate over the same SDP variable ids. -/
theorem duplicate_momentmatrix_shifts_variable_columns :
    (duplicateMomentmatrix dupFex [1, 1] 1 1 1).1 1 1 = 0 ∧
    dupFex 0 1 = 1 ∧
    (duplicateMomentmatrix dupFex [1, 1] 1 1 1).1 1 3 = 1 := by
  refine ⟨by decide, by decide, by decide⟩

theorem dupFoldAux_other (row_offset colStart count : ℕ) :
    ∀ (rows : List ℕ) (F : ℕ → ℕ → ℚ) (R c : ℕ),
      (∀ row ∈ rows, row_offset + row ≠ R) →
      dupFoldAux F row_offset colStart count rows R c = F R c := by
  intro rows
  induction rows with
  | nil => intro F R c _; rfl
  | cons row rest ih =>
    intro F R c h
    simp only [dupFoldAux, List.foldl_cons]
    rw [show rest.foldl
        (fun Fc r => assignRowSlice Fc (row_offset + r) colStart count r)
        (assignRowSlice F (row_offset + row) colStart count row)
        = dupFoldAux (assignRowSlice F (row_offset + row) colStart count row)
            row_offset colStart count rest from rfl]
    rw [ih _ R c (fun r hr => h r (List.mem_cons_of_mem _ hr))]
    unfold assignRowSlice
    have : ¬ (R = row_offset + row ∧ colStart ≤ c ∧ c < colStart + count) := by
      intro hcon
      exact h row (List.mem_cons_self _ _) hcon.1.symm
    simp [this]

theorem dupFoldAux_eval (row_offset colStart count : ℕ) :
    ∀ (rows : List ℕ) (F : ℕ → ℕ → ℚ) (r c : ℕ),
      rows.Nodup → (∀ row ∈ rows, row < row_offset) → r ∈ rows →
      colStart ≤ c → c < colStart + count →
      dupFoldAux F row_offset colStart count rows (row_offset + r) c
        = F r (c - colStart) := by
  intro rows
  induction rows with
  | nil => intro F r c _ _ hmem; simp at hmem
  | cons row rest ih =>
    intro F r c hnd hlow hmem hc1 hc2
    simp only [dupFoldAux, List.foldl_cons]
    rw [show rest.foldl
        (fun Fc q => assignRowSlice Fc (row_offset + q) colStart count q)
        (assignRowSlice F (row_offset + row) colStart count row)
        = dupFoldAux (assignRowSlice F (row_offset + row) colStart count row)
            row_offset colStart count rest from rfl]
    rcases List.mem_cons.mp hmem with hr | hr
    · subst hr
      have hnotin : r ∉ rest := (List.nodup_cons.mp hnd).1
      rw [dupFoldAux_other row_offset colStart count rest _ (row_offset + r) c
        (fun q hq hqe => hnotin (by
          have : q = r := by omega
          rw [← this]; exact hq))]
      unfold assignRowSlice
      simp [hc1, hc2]
    · rw [ih _ r c (List.nodup_cons.mp hnd).2
        (fun q hq => hlow q (List.mem_cons_of_mem _ hq)) hr hc1 hc2]
      unfold assignRowSlice
      have hrlow : r < row_offset := hlow r hmem
      have : ¬ (r = row_offset + row ∧ colStart ≤ c - colStart ∧
          c - colStart < colStart + count) := by
        intro hcon
        omega
      by_cases hcc : r = row_offset + row ∧ colStart ≤ c - colStart ∧
          c - colStart < colStart + count
      · exact absurd hcc this
      · simp only [hcc, if_false]

/-- C3 (amended): the extra moment matrix requested with `["copy"]` has the
same block size as the principal block, and every entry of the copied block
equals the corresponding entry of the principal block with the variable
columns shifted by `n_vars + 1` — the copy duplicates the principal values
onto fresh SDP variable ids `n_vars+1 .. n_vars+original_n_vars+1` (column
`j` of the original appearing at column `n_vars+1+j`), not onto the same
ids, and `n_vars` grows by `original_n_vars + 1`. -/
theorem duplicate_momentmatrix_copy_structure
    (F : ℕ → ℕ → ℚ) (block_struct : List ℤ)
    (original_n_vars n_vars block_index r j : ℕ)
    (hsep : ((block_struct.headD 0).toNat) * ((block_struct.headD 0).toNat)
      ≤ rowOffsetUpTo block_struct block_index)
    (hr : r < ((block_struct.headD 0).toNat) * ((block_struct.headD 0).toNat))
    (hj : j ≤ original_n_vars) :
    (duplicateMomentmatrix F block_struct original_n_vars n_vars block_index).1
        (rowOffsetUpTo block_struct block_index + r) (n_vars + 1 + j) = F r j ∧
    (duplicateMomentmatrix F block_struct original_n_vars n_vars
        block_index).2.1 = n_vars + original_n_vars + 1 ∧
    (∀ (sz k : ℕ), blockStructWithExtras [sz] k = sz :: List.replicate k sz) := by
  refine ⟨?_, rfl, ?_⟩
  · unfold duplicateMomentmatrix
    simp only
    rw [dupFoldAux_eval (rowOffsetUpTo block_struct block_index) (n_vars + 1)
      (original_n_vars + 1) (List.range _) F r (n_vars + 1 + j)
      (List.nodup_range _)
      (fun q hq => lt_of_lt_of_le (List.mem_range.mp hq) hsep)
      (List.mem_range.mpr hr) (by omega) (by omega)]
    congr 1
    omega
  · intro sz k
    unfold blockStructWithExtras
    have hfl : ∀ m : ℕ, (List.replicate m [sz]).flatten = List.replicate m sz := by
      intro m
      induction m with
      | zero => rfl
      | succ q ih => simp [List.replicate_succ, ih]
    simp [hfl]

/-- Witness for the amended C3 at the concrete counterexample instance:
the copied cell at shifted column `3 = n_vars + 1 + 1` carries the
principal block's entry at column `1`. -/
theorem duplicate_momentmatrix_copy_structure_witness :
    (duplicateMomentmatrix dupFex [1, 1] 1 1 1).1
      (rowOffsetUpTo [1, 1] 1 + 0) (1 + 1 + 1) = dupFex 0 1 ∧ dupFex 0 1 = 1 := by
  refine ⟨(duplicate_momentmatrix_copy_structure dupFex [1, 1] 1 1 1 0 1
    (by decide) (by decide) (by decide)).1, by decide⟩

/-- Whether `pat` is an initial segment of `w`. -/
def matchesAt : Word → Word → Bool
  | [], _ => true
  | _ :: _, [] => false
  | a :: ps, b :: ws => a = b && matchesAt ps ws

/-- Modelled from the spec: SymPy's `monomial.subs(lhs, rhs)` on a
noncommutative product, as used by `SdpRelaxation.__apply_substitutions`
(sdprelaxation.py, line 64) — every non-overlapping occurrence of the
pattern sub-word is replaced left to right. -/
def replaceAllW (pat repl : Word) (w : Word) : Word :=
  match w with
  | [] => []
  | a :: rest =>
    if h : pat ≠ [] ∧ matchesAt pat (a :: rest) = true then
      repl ++ replaceAllW pat repl ((a :: rest).drop pat.length)
    else
      a :: replaceAllW pat repl rest
termination_by w.length
decreasing_by
  · simp only [List.length_drop, List.length_cons]
    have : 0 < pat.length := List.length_pos.mpr h.1
    omega
  · simp

/-- One pass of the `while changed` loop body of
`SdpRelaxation.__apply_substitutions` (sdprelaxation.py, lines 59-65):
every substitution rule is applied once, in order. -/
def substPass (rules : List (Word × Word)) (m : Word) : Word :=
  rules.foldl (fun w r => replaceAllW r.1 r.2 w) m

/-- The `while changed` loop of `SdpRelaxation.__apply_substitutions`
(sdprelaxation.py, lines 55-69), made total with an explicit iteration
budget: the source loop runs a pass and stops only when the pass changed
nothing; `none` means the budget was exhausted without reaching a fixed
point — the source code would still be running. -/
def applySubstitutionsFuel (rules : List (Word × Word)) :
    ℕ → Word → Option Word
  | 0, _ => none
  | n + 1, monomial =>
    let m2 := substPass rules monomial
    if monomial = m2 then some monomial
    else applySubstitutionsFuel rules n m2

/-- The ill-formed rule set `X → X·X`: a pass always strictly grows the
monomial, so no fixed point is ever reached. -/
def cycRules : List (Word × Word) := [([0], [0, 0])]

theorem substPass_cyc (k : ℕ) :
    substPass cycRules (List.replicate k 0) = List.replicate (2 * k) 0 := by
  induction k with
  | zero => simp [substPass, cycRules, replaceAllW]
  | succ q ih =>
    show replaceAllW [0] [0, 0] (List.replicate (q + 1) 0)
      = List.replicate (2 * (q + 1)) 0
    rw [List.replicate_succ]
    rw [replaceAllW]
    have hm : ([0] : Word) ≠ [] ∧ matchesAt [0] (0 :: List.replicate q 0) = true := by
      constructor
      · simp
      · simp [matchesAt]
    rw [dif_pos hm]
    simp only [List.length_cons, List.length_nil, List.drop_succ_cons,
      List.drop_zero]
    have ihr : replaceAllW [0] [0, 0] (List.replicate q 0)
        = List.replicate (2 * q) 0 := ih
    rw [ihr]
    have : 2 * (q + 1) = (2 * q) + 1 + 1 := by omega
    rw [this, List.replicate_succ, List.replicate_succ]
    rfl

theorem applySubstitutionsFuel_cyc_none :
    ∀ (n k : ℕ), 1 ≤ k →
      applySubstitutionsFuel cycRules n (List.replicate k 0) = none := by
  intro n
  induction n with
  | zero => intro k _; rfl
  | succ q ih =>
    intro k hk
    show (if List.replicate k 0 = substPass cycRules (List.replicate k 0)
        then some (List.replicate k 0)
        else applySubstitutionsFuel cycRules q
          (substPass cycRules (List.replicate k 0))) = none
    rw [substPass_cyc k]
    have hne : List.replicate k 0 ≠ List.replicate (2 * k) 0 := by
      intro hcon
      have := congrArg List.length hcon
      simp at this
      omega
    rw [if_neg hne]
    exact ih (2 * k) (by omega)

/-- C4 (counterexample): on the rule set `X → X·X` the substitution loop of
`__apply_substitutions` never terminates — no iteration budget whatsoever
makes it reach a fixed point or produce any result (in particular it never
raises a non-terminating-substitution error; the source has no iteration
bound at all). -/
theorem apply_substitutions_no_bound_no_error :
    ¬ ∃ n : ℕ, (applySubstitutionsFuel cycRules n [0]).isSome := by
  intro hcon
  obtain ⟨n, hn⟩ := hcon
  have : applySubstitutionsFuel cycRules n [0] = none := by
    have h1 : ([0] : Word) = List.replicate 1 0 := rfl
    rw [h1]
    exact applySubstitutionsFuel_cyc_none n 1 (by omega)
  rw [this] at hn
  simp at hn

/-- C4 (amended): `__apply_substitutions` iterates substitution passes with
no iteration bound and no error path: it returns (the unchanged monomial)
as soon as a pass reaches a fixed point, and on a rule set that never
reaches one — such as `X → X·X` — it simply never terminates: every finite
number of passes ends without a result. -/
theorem apply_substitutions_fixedpoint_unbounded
    (rules : List (Word × Word)) (m : Word) (n : ℕ)
    (hfix : substPass rules m = m) :
    applySubstitutionsFuel rules (n + 1) m = some m ∧
    applySubstitutionsFuel cycRules n [0] = none := by
  constructor
  · show (if m = substPass rules m then some m
      else applySubstitutionsFuel rules n (substPass rules m)) = some m
    rw [if_pos hfix.symm]
  · have h1 : ([0] : Word) = List.replicate 1 0 := rfl
    rw [h1]
    exact applySubstitutionsFuel_cyc_none n 1 (by omega)

/-- Witness for the amended C4: the empty rule set is at a fixed point on
any monomial, so one pass returns the monomial unchanged. -/
theorem apply_substitutions_fixedpoint_unbounded_witness :
    applySubstitutionsFuel [] 3 [5] = some [5] ∧
    applySubstitutionsFuel cycRules 2 [0] = none := by
  have h := apply_substitutions_fixedpoint_unbounded [] [5] 2 (by
    show substPass [] [5] = [5]
    rfl)
  exact h

/-- The number of rows allocated for `F_struct` in `get_relaxation`
(sdp_relaxation.py, line 1278):
`sum([bs**2 for bs in self.block_struct])` — the square is taken for every
entry of `block_struct`, negative entries included. -/
def FStructRows (block_struct : List ℤ) : ℕ :=
  (block_struct.map (fun b => (b * b).toNat)).sum

/-- The row-count formula asserted by the specification:
`sum(size**2 for size in block_struct if size > 0) +
 sum(size for size in block_struct if size < 0)`. -/
def claimedRowCount (block_struct : List ℤ) : ℤ :=
  ((block_struct.filter (fun b => decide (0 < b))).map (fun b => b * b)).sum
    + (block_struct.filter (fun b => decide (b < 0))).sum

/-- The head of `block_struct` built by `_calculate_block_structure`
(sdp_relaxation.py, lines 767-774): a `-len(parameters)` block when
symbolic parameters are present, followed by one block per monomial set
with the set's size. -/
def blockStructHead (parameters : Option ℕ) (setSizes : List ℕ) : List ℤ :=
  (match parameters with
   | some p => [-(p : ℤ)]
   | none => []) ++ setSizes.map (fun n => (n : ℤ))

/-- C5 (counterexample): a relaxation with two symbolic parameters and one
monomial set of size 3 produces `block_struct = [-2, 3]`; the code
allocates `(-2)² + 3² = 13` rows for `F`, while the claimed formula gives
`3² + (-2) = 7`. -/
theorem F_row_count_mismatch_on_parameter_block :
    blockStructHead (some 2) [3] = [-2, 3] ∧
    claimedRowCount (blockStructHead (some 2) [3]) = 7 ∧
    (FStructRows (blockStructHead (some 2) [3]) : ℤ) = 13 := by
  refine ⟨by decide, by decide, by decide⟩

/-- C5 (amended): the row count of `F` equals the sum of `size**2` over
ALL entries of `block_struct` (a negative entry `-n` also contributes
`n²`); when every entry of `block_struct` is nonnegative — i.e. no
symbolic-parameter block is present — this coincides with the claimed
formula. -/
theorem F_row_count_sum_of_squares (block_struct : List ℤ)
    (hpos : ∀ b ∈ block_struct, 0 ≤ b) :
    claimedRowCount block_struct = (FStructRows block_struct : ℤ) := by
  induction block_struct with
  | nil => rfl
  | cons b rest ih =>
    have hb : (0 : ℤ) ≤ b := hpos b (List.mem_cons_self _ _)
    have ihr := ih (fun q hq => hpos q (List.mem_cons_of_mem _ hq))
    have hnneg : ¬ (b < 0) := not_lt.mpr hb
    unfold claimedRowCount FStructRows
    unfold claimedRowCount FStructRows at ihr
    simp only [List.filter_cons, List.map_cons, List.sum_cons]
    by_cases hb0 : 0 < b
    · rw [if_pos (decide_eq_true hb0), if_neg (by simp [hnneg])]
      simp only [List.map_cons, List.sum_cons]
      push_cast
      push_cast at ihr
      rw [Int.toNat_of_nonneg (mul_self_nonneg b)]
      linarith
    · have hbz : b = 0 := le_antisymm (not_lt.mp hb0) hb
      subst hbz
      simpa using ihr

/-- Witness for the amended C5: on the all-positive block structure
`[3, 1]` the claimed formula and the allocated row count agree, both
giving 10. -/
theorem F_row_count_sum_of_squares_witness :
    claimedRowCount [3, 1] = (FStructRows [3, 1] : ℤ) ∧
    FStructRows [3, 1] = 10 := by
  refine ⟨F_row_count_sum_of_squares [3, 1] (by decide), by decide⟩

/-- C6: a moment-matrix product that canonicalizes to the exact unit value
is written to the constant column of `F`; at the top-left cell
(`rowA = columnA = rowB = columnB = 0`) the `normalized` flag decides:
on, the entry is fixed to the constant `1` in column `0` with `n_vars`
unchanged; off, a fresh free variable `n_vars + 1` is created for the cell
instead.  At any cell other than the top-left one the unit value goes to
the constant column and no variable is created. -/
theorem unit_moment_entry_constant_column
    (normalized : Bool) (msub : List (Word × ℚ)) (s : PushState)
    (row_offset rowA columnA N rowB columnB lenB : ℕ) :
    ((pushMonomial true msub s (.num 1) row_offset 0 0 N 0 0 lenB).F
        (rowIndex row_offset 0 0 N 0 0 lenB) 0 = 1 ∧
      (pushMonomial true msub s (.num 1) row_offset 0 0 N 0 0 lenB).n_vars
        = s.n_vars) ∧
    ((pushMonomial false msub s (.num 1) row_offset 0 0 N 0 0 lenB).F
        (rowIndex row_offset 0 0 N 0 0 lenB) (s.n_vars + 1) = 1 ∧
      (pushMonomial false msub s (.num 1) row_offset 0 0 N 0 0 lenB).n_vars
        = s.n_vars + 1) ∧
    (¬ (rowA = 0 ∧ columnA = 0 ∧ rowB = 0 ∧ columnB = 0) →
      (pushMonomial normalized msub s (.num 1) row_offset rowA columnA N rowB
          columnB lenB).F
        (rowIndex row_offset rowA columnA N rowB columnB lenB) 0 = 1 ∧
      (pushMonomial normalized msub s (.num 1) row_offset rowA columnA N rowB
          columnB lenB).n_vars = s.n_vars) := by
  refine ⟨⟨?_, ?_⟩, ⟨?_, ?_⟩, ?_⟩
  · simp [pushMonomial, pushNum, setF]
  · simp [pushMonomial, pushNum]
  · simp [pushMonomial, pushNum, setF]
  · simp [pushMonomial, pushNum]
  · intro hne
    have hcond : ¬ (rowA = 0 ∧ columnA = 0 ∧ rowB = 0 ∧ columnB = 0 ∧
        (1 : ℚ) = 1) := by
      intro hcon
      exact hne ⟨hcon.1, hcon.2.1, hcon.2.2.1, hcon.2.2.2.1⟩
    constructor
    · simp [pushMonomial, pushNum, hcond, hne, setF]
    · simp [pushMonomial, pushNum, hcond, hne]

/-- Witness for C6 at a concrete state (`n_vars = 5`, zero `F`): the
normalized top-left entry lands in the constant column, the unnormalized
one creates variable `6`, and a non-top-left unit entry lands in the
constant column. -/
theorem unit_moment_entry_constant_column_witness :
    (pushMonomial true [] ⟨fun _ _ => 0, 5, []⟩ (.num 1) 7 0 0 3 0 0 1).F
      (rowIndex 7 0 0 3 0 0 1) 0 = 1 ∧
    (pushMonomial false [] ⟨fun _ _ => 0, 5, []⟩ (.num 1) 7 0 0 3 0 0 1).n_vars
      = 5 + 1 ∧
    (pushMonomial true [] ⟨fun _ _ => 0, 5, []⟩ (.num 1) 7 1 1 3 0 0 1).F
      (rowIndex 7 1 1 3 0 0 1) 0 = 1 := by
  have h := unit_moment_entry_constant_column true []
    ⟨fun _ _ => 0, 5, []⟩ 7 1 1 3 0 0 1
  exact ⟨h.1.1, h.2.1.2, (h.2.2 (by simp)).1⟩

/-- The lookup cascade of `_get_index_of_monomial` (sdp_relaxation.py,
lines 417-442) for one monomial: a plain number maps to the constant
column; a moment-substituted monomial maps to the constant column with the
substitution value multiplied in; an indexed monomial maps to its recorded
id; otherwise the monomial is unresolved (`none`). -/
def getIndexCore (msub : List (Word × ℚ)) (mi : List (Word × ℕ))
    (w : Word) (coeff : ℚ) : Option (ℕ × ℚ) :=
  if w = [] then some (0, coeff)
  else
    match lookupW msub w with
    | some c0 => some (0, c0 * coeff)
    | none =>
      match lookupW mi w with
      | some k => some (k, coeff)
      | none => none

/-- Embedding of `SdpRelaxation._get_index_of_monomial` (sdp_relaxation.py,
lines 406-451) on a single already-separated term `coeff * word` under pure
substitution rules (`subst`): the substituted monomial is resolved through
the cascade; when unresolved and not yet daggered, the function retries the
same cascade on the substituted adjoint (coefficient `1`, `daggered=True`),
carrying `coeff` through the returned pairs; when the adjoint is unresolved
too, the daggered call raises the monomial-not-found `RuntimeError`. -/
def getIndexOfMonomial (subst : Word → Word) (msub : List (Word × ℚ))
    (mi : List (Word × ℕ)) (element : ℚ × Word) (enablesub : Bool) :
    Except String (List (ℕ × ℚ)) :=
  let pw := if enablesub then subst element.2 else element.2
  match getIndexCore msub mi pw element.1 with
  | some kc => .ok [kc]
  | none =>
    match getIndexCore msub mi (subst (adjW pw)) 1 with
    | some kc => .ok [(kc.1, kc.2 * element.1)]
    | none => .error "The requested monomial could not be found."

/-- C9: resolving a monomial that is not in the monomial index falls back
to its adjoint: when the substituted adjoint is indexed with id `k`, the
query returns `k` with the coefficient carried through instead of creating
a duplicate variable; when neither the monomial nor its adjoint resolves,
the query fails with the monomial-not-found error; and a lookup never
creates state — every id in a successful result is either the constant
column `0` or an id already recorded in the monomial index. -/
theorem monomial_lookup_adjoint_fallback
    (subst : Word → Word) (msub : List (Word × ℚ)) (mi : List (Word × ℕ))
    (c : ℚ) (w : Word)
    (hpw : subst w ≠ [])
    (h1 : lookupW msub (subst w) = none)
    (h2 : lookupW mi (subst w) = none) :
    (∀ k : ℕ, subst (adjW (subst w)) ≠ [] →
      lookupW msub (subst (adjW (subst w))) = none →
      lookupW mi (subst (adjW (subst w))) = some k →
      getIndexOfMonomial subst msub mi (c, w) true = .ok [(k, 1 * c)]) ∧
    (subst (adjW (subst w)) ≠ [] →
      lookupW msub (subst (adjW (subst w))) = none →
      lookupW mi (subst (adjW (subst w))) = none →
      getIndexOfMonomial subst msub mi (c, w) true
        = .error "The requested monomial could not be found.") ∧
    (∀ (e : ℚ × Word) (res : List (ℕ × ℚ)),
      getIndexOfMonomial subst msub mi e true = .ok res →
      ∀ kc ∈ res, kc.1 = 0 ∨ ∃ w2, lookupW mi w2 = some kc.1) := by
  have hcore : getIndexCore msub mi (subst w) c = none := by
    unfold getIndexCore
    rw [if_neg hpw, h1, h2]
  refine ⟨?_, ?_, ?_⟩
  · intro k ha hm1 hm2
    unfold getIndexOfMonomial
    simp only [if_true]
    rw [hcore]
    unfold getIndexCore
    rw [if_neg ha, hm1, hm2]
  · intro ha hm1 hm2
    unfold getIndexOfMonomial
    simp only [if_true]
    rw [hcore]
    unfold getIndexCore
    rw [if_neg ha, hm1, hm2]
  · intro e res hres kc hkc
    unfold getIndexOfMonomial at hres
    simp only [if_true] at hres
    cases hc1 : getIndexCore msub mi (subst e.2) e.1 with
    | some kc1 =>
      rw [hc1] at hres
      have hre : res = [kc1] := by
        have := hres
        simp at this
        rw [this]
      rw [hre] at hkc
      simp at hkc
      subst hkc
      unfold getIndexCore at hc1
      by_cases hw : subst e.2 = []
      · rw [if_pos hw] at hc1
        left
        have : kc = (0, e.1) := by simpa using hc1.symm
        rw [this]
      · rw [if_neg hw] at hc1
        cases hms : lookupW msub (subst e.2) with
        | some c0 =>
          rw [hms] at hc1
          left
          have : kc = (0, c0 * e.1) := by simpa using hc1.symm
          rw [this]
        | none =>
          rw [hms] at hc1
          cases hmi : lookupW mi (subst e.2) with
          | some k2 =>
            rw [hmi] at hc1
            right
            refine ⟨subst e.2, ?_⟩
            have : kc = (k2, e.1) := by simpa using hc1.symm
            rw [this]
            exact hmi
          | none => rw [hmi] at hc1; simp at hc1
    | none =>
      rw [hc1] at hres
      cases hc2 : getIndexCore msub mi (subst (adjW (subst e.2))) 1 with
      | some kc2 =>
        rw [hc2] at hres
        have hre : res = [(kc2.1, kc2.2 * e.1)] := by
          have := hres
          simp at this
          rw [this]
        rw [hre] at hkc
        simp at hkc
        unfold getIndexCore at hc2
        by_cases hw : subst (adjW (subst e.2)) = []
        · rw [if_pos hw] at hc2
          left
          have hkc2 : kc2 = (0, 1) := by simpa using hc2.symm
          rw [hkc, hkc2]
        · rw [if_neg hw] at hc2
          cases hms : lookupW msub (subst (adjW (subst e.2))) with
          | some c0 =>
            rw [hms] at hc2
            left
            have hkc2 : kc2 = (0, c0 * 1) := by simpa using hc2.symm
            rw [hkc, hkc2]
          | none =>
            rw [hms] at hc2
            cases hmi : lookupW mi (subst (adjW (subst e.2))) with
            | some k2 =>
              rw [hmi] at hc2
              right
              refine ⟨subst (adjW (subst e.2)), ?_⟩
              have hkc2 : kc2 = (k2, 1) := by simpa using hc2.symm
              rw [hkc, hkc2]
              exact hmi
            | none => rw [hmi] at hc2; simp at hc2
      | none => rw [hc2] at hres; simp at hres

/-- Witness for C9: with the index holding only `y·x ↦ 4`, the query for
`3 * x·y` (letters `x = 0`, `y = 1`) resolves through its adjoint to id `4`
with the coefficient carried; with an empty index the same query fails with
the monomial-not-found error. -/
theorem monomial_lookup_adjoint_fallback_witness :
    getIndexOfMonomial (fun w => w) [] [([1, 0], 4)] (3, [0, 1]) true
      = .ok [(4, 1 * 3)] ∧
    getIndexOfMonomial (fun w => w) [] [] (3, [0, 1]) true
      = .error "The requested monomial could not be found." := by
  constructor
  · exact (monomial_lookup_adjoint_fallback (fun w => w) [] [([1, 0], 4)] 3
      [0, 1] (by decide) (by decide) (by decide)).1 4 (by decide) (by decide)
      (by decide)
  · exact (monomial_lookup_adjoint_fallback (fun w => w) [] [] 3 [0, 1]
      (by decide) (by decide) (by decide)).2.1 (by decide) (by decide)
      (by decide)

/-- A polynomial: a finite sum of `coefficient * word` terms. -/
abbrev NPoly := List (ℚ × Word)

/-- Negation of a polynomial, as in `self.constraints.append(-equality)`. -/
def negPoly (p : NPoly) : NPoly := p.map (fun t => (-t.1, t.2))

/-- The inner loop of `__push_facvar_sparse` (sdp_relaxation.py, lines
469-474): each element of the polynomial is resolved through
`_get_index_of_monomial` and the resulting `(k, coeff)` pairs with nonzero
coefficient are added into `F[row, k]`; a failed resolution raises, with the
writes made so far retained (the second component reports the pending
exception). -/
def pushFacvarRow (subst : Word → Word) (msub : List (Word × ℚ))
    (mi : List (Word × ℕ)) (row : ℕ) :
    (ℕ → ℕ → ℚ) → List (ℚ × Word) → (ℕ → ℕ → ℚ) × Option String
  | F, [] => (F, none)
  | F, e :: rest =>
    match getIndexOfMonomial subst msub mi e true with
    | .error msg => (F, some msg)
    | .ok results =>
      pushFacvarRow subst msub mi row
        (results.foldl
          (fun Fc kc => if kc.2 ≠ 0 then addF Fc row kc.1 kc.2 else Fc) F)
        rest

/-- Modelled from the spec: `simplify_polynomial` from the absent
`nc_utils.py`, restricted to pure substitution rules — the localizing entry
`adjoint(monomials[row]) * g * monomials[column]` is expanded term by term
and the substitution function is applied to each resulting word. -/
def localizingEntryPoly (subst : Word → Word) (g : NPoly)
    (mrow mcol : Word) : NPoly :=
  g.map (fun t => (t.1, subst (adjW mrow ++ t.2 ++ mcol)))

/-- The `(row, column)` cell loop of `__process_inequalities`
(sdp_relaxation.py, lines 527-536): cells of the upper triangle in row-major
order, each entry polynomial pushed at flattened row
`base + row * width + column`; an exception aborts the remaining cells. -/
def pushCells (subst : Word → Word) (msub : List (Word × ℚ))
    (mi : List (Word × ℕ)) (monomials : List Word) (g : NPoly)
    (base width : ℕ) :
    (ℕ → ℕ → ℚ) → List (ℕ × ℕ) → (ℕ → ℕ → ℚ) × Option String
  | F, [] => (F, none)
  | F, (i, j) :: rest =>
    let poly := localizingEntryPoly subst g (monomials.getD i [])
      (monomials.getD j [])
    let res := pushFacvarRow subst msub mi (base + i * width + j) F poly
    match res.2 with
    | some msg => (res.1, some msg)
    | none => pushCells subst msub mi monomials g base width res.1 rest

/-- The upper-triangle cell list `[(row, column) : row ≤ column]` in the
visit order of `__process_inequalities`. -/
def upperCells (n : ℕ) : List (ℕ × ℕ) :=
  (List.range n).flatMap fun row =>
    (List.range' row (n - row)).map fun column => (row, column)

/-- The constraint loop of `__process_inequalities` (sdp_relaxation.py,
lines 498-574, sequential branch): for the `k`-th constraint the block
index is first incremented to `bi`, the localizing monomials are
`localizing_monomial_sets[bi - initial - 1]`, the block width is
`block_struct[bi - 1]`, and the cells are pushed at base row offset
`row_offsets[bi - 1]`; a raised exception propagates, keeping earlier
writes. -/
def processIneqsAux (subst : Word → Word) (msub : List (Word × ℚ))
    (mi : List (Word × ℕ)) (block_struct : List ℤ)
    (locSets : List (List Word)) (initial : ℕ) :
    ℕ → (ℕ → ℕ → ℚ) → List NPoly → (ℕ → ℕ → ℚ) × Option String
  | _, F, [] => (F, none)
  | bi, F, g :: rest =>
    let monomials := locSets.getD (bi - initial - 1) []
    let width := (block_struct.getD (bi - 1) 0).toNat
    let base := rowOffsetUpTo block_struct (bi - 1)
    let res := pushCells subst msub mi monomials g base width F
      (upperCells monomials.length)
    match res.2 with
    | some msg => (res.1, some msg)
    | none => processIneqsAux subst msub mi block_struct locSets initial
        (bi + 1) res.1 rest

/-- Modelled from the spec: `check_simple_substitution` from the absent
`nc_utils.py` — recognizes a moment equality of the shape
`monomial - constant` (a two-term polynomial `1*w + c*1`) and returns the
moment substitution `(w, -c)`; every other shape yields the `(0, 0)`
sentinel, modelled as `none`. -/
def checkSimpleSubstitution (meq : NPoly) : Option (Word × ℚ) :=
  match meq with
  | [(c1, w), (c2, [])] => if c1 = 1 ∧ w ≠ [] then some (w, -c2) else none
  | _ => none

/-- The stringified argument bundle of `process_constraints`; the content
hash is an arbitrary function of it. -/
structure PCArgs where
  inequalities : List NPoly
  equalities : List NPoly
  bounds : List NPoly
  momentinequalities : List NPoly
  momentequalities : List NPoly

/-- The constraint list built by `process_constraints` (sdp_relaxation.py,
lines 958-987) in the default (`removeequalities=False`) mode:
inequalities, then each equality as a `±` pair, then bounds, then moment
inequalities, then each non-simple moment equality as a `±` pair (simple
ones were recorded as moment substitutions during block-structure
calculation and are skipped here). -/
def buildConstraints (args : PCArgs) : List NPoly :=
  args.inequalities
    ++ (args.equalities.flatMap fun e => [e, negPoly e])
    ++ args.bounds
    ++ args.momentinequalities
    ++ (args.momentequalities.flatMap fun meq =>
        match checkSimpleSubstitution meq with
        | none => [meq, negPoly meq]
        | some _ => [])

/-- The relaxation state touched by `process_constraints`. -/
structure SdpState where
  F : ℕ → ℕ → ℚ
  Frows : ℕ
  block_struct : List ℤ
  constraint_starting_block : ℕ
  monomial_index : List (Word × ℕ)
  moment_substitutions : List (Word × ℚ)
  n_vars : ℕ
  status : String
  constraints_hash : Option ℤ
  constraints : List NPoly
  localizing_monomial_sets : List (List Word)

/-- Embedding of `__wipe_F_struct_from_constraints` (sdp_relaxation.py,
lines 910-916): every row from the cumulative offset of
`constraint_starting_block` up to the allocated row count is emptied. -/
def wipeF (F : ℕ → ℕ → ℚ) (offset rows : ℕ) : ℕ → ℕ → ℚ :=
  fun r c => if offset ≤ r ∧ r < rows then 0 else F r c

/-- Embedding of `SdpRelaxation.process_constraints` (sdp_relaxation.py,
lines 922-992) in the default `removeequalities=False` mode (the
equality-elimination branch calls the separate QR-based eliminator and is
outside this model; string-expression constraints are likewise outside the
model).  The content-hash guard returns immediately when the stored hash
matches; otherwise the hash is stored, the status reset, the
constraint-derived rows of `F` wiped, the constraint list rebuilt and the
localizing blocks re-pushed.  The second component carries a pending
exception from constraint processing. -/
def processConstraints (h : PCArgs → ℤ) (subst : Word → Word)
    (s : SdpState) (args : PCArgs) (block_index : ℕ) :
    SdpState × Option String :=
  if (block_index = 0 ∨ block_index = s.constraint_starting_block) ∧
      s.constraints_hash = some (h args) then (s, none)
  else
    let s1 := if block_index = 0 ∨ block_index = s.constraint_starting_block
      then { s with constraints_hash := some (h args) } else s
    let s2 := { s1 with status := "unsolved" }
    let bi := if block_index = 0 then s2.constraint_starting_block
      else block_index
    let s3 := if block_index = 0 then
        { s2 with
          F := wipeF s2.F
            (rowOffsetUpTo s2.block_struct s2.constraint_starting_block)
            s2.Frows }
      else s2
    let s4 := { s3 with constraints := buildConstraints args }
    let res := processIneqsAux subst s4.moment_substitutions s4.monomial_index
      s4.block_struct s4.localizing_monomial_sets bi (bi + 1) s4.F
      s4.constraints
    ({ s4 with F := res.1 }, res.2)

theorem rowOffsetUpTo_succ (bs : List ℤ) (n : ℕ) :
    rowOffsetUpTo bs n ≤ rowOffsetUpTo bs (n + 1) := by
  unfold rowOffsetUpTo
  rw [List.take_succ]
  simp

theorem rowOffsetUpTo_mono (bs : List ℤ) (n m : ℕ) (h : n ≤ m) :
    rowOffsetUpTo bs n ≤ rowOffsetUpTo bs m := by
  induction m with
  | zero =>
    have : n = 0 := Nat.le_zero.mp h
    rw [this]
  | succ q ih =>
    rcases Nat.lt_or_ge n (q + 1) with hlt | hge
    · exact le_trans (ih (Nat.lt_succ_iff.mp hlt)) (rowOffsetUpTo_succ bs q)
    · have : n = q + 1 := le_antisymm h hge
      rw [this]

theorem pushFacvarRow_frame (subst : Word → Word) (msub : List (Word × ℚ))
    (mi : List (Word × ℕ)) (row : ℕ) :
    ∀ (es : List (ℚ × Word)) (F : ℕ → ℕ → ℚ) (r c : ℕ), r ≠ row →
      (pushFacvarRow subst msub mi row F es).1 r c = F r c := by
  intro es
  induction es with
  | nil => intro F r c _; rfl
  | cons e rest ih =>
    intro F r c hr
    unfold pushFacvarRow
    cases hg : getIndexOfMonomial subst msub mi e true with
    | error msg => rfl
    | ok results =>
      rw [ih _ r c hr]
      clear ih hg
      induction results generalizing F with
      | nil => rfl
      | cons kc krest kih =>
        simp only [List.foldl_cons]
        rw [kih]
        by_cases hz : kc.2 ≠ 0
        · rw [if_pos hz]
          unfold addF
          have : ¬ (r = row ∧ c = kc.1) := fun hcon => hr hcon.1
          simp [this]
        · rw [if_neg hz]

theorem pushCells_frame (subst : Word → Word) (msub : List (Word × ℚ))
    (mi : List (Word × ℕ)) (monomials : List Word) (g : NPoly)
    (base width : ℕ) :
    ∀ (cells : List (ℕ × ℕ)) (F : ℕ → ℕ → ℚ) (r c : ℕ), r < base →
      (pushCells subst msub mi monomials g base width F cells).1 r c
        = F r c := by
  intro cells
  induction cells with
  | nil => intro F r c _; rfl
  | cons cell rest ih =>
    intro F r c hr
    obtain ⟨i, j⟩ := cell
    unfold pushCells
    have hrow : r ≠ base + i * width + j := by omega
    cases hp : (pushFacvarRow subst msub mi (base + i * width + j) F
        (localizingEntryPoly subst g (monomials.getD i [])
          (monomials.getD j []))).2 with
    | some msg =>
      simp only [hp]
      rw [pushFacvarRow_frame subst msub mi _ _ F r c hrow]
    | none =>
      simp only [hp]
      rw [ih _ r c hr, pushFacvarRow_frame subst msub mi _ _ F r c hrow]

theorem processIneqsAux_frame (subst : Word → Word) (msub : List (Word × ℚ))
    (mi : List (Word × ℕ)) (bs : List ℤ) (locSets : List (List Word))
    (initial : ℕ) :
    ∀ (cs : List NPoly) (bi : ℕ) (F : ℕ → ℕ → ℚ) (r c : ℕ),
      initial + 1 ≤ bi → r < rowOffsetUpTo bs initial →
      (processIneqsAux subst msub mi bs locSets initial bi F cs).1 r c
        = F r c := by
  intro cs
  induction cs with
  | nil => intro bi F r c _ _; rfl
  | cons g rest ih =>
    intro bi F r c hbi hr
    unfold processIneqsAux
    have hbase : r < rowOffsetUpTo bs (bi - 1) :=
      lt_of_lt_of_le hr (rowOffsetUpTo_mono bs initial (bi - 1) (by omega))
    cases hp : (pushCells subst msub mi
        (locSets.getD (bi - initial - 1) []) g
        (rowOffsetUpTo bs (bi - 1)) ((bs.getD (bi - 1) 0).toNat) F
        (upperCells (locSets.getD (bi - initial - 1) []).length)).2 with
    | some msg =>
      simp only [hp]
      rw [pushCells_frame subst msub mi _ g _ _ _ F r c hbase]
    | none =>
      simp only [hp]
      rw [ih (bi + 1) _ r c (by omega) hr,
        pushCells_frame subst msub mi _ g _ _ _ F r c hbase]

theorem processConstraints_hash_set (h : PCArgs → ℤ) (subst : Word → Word)
    (s : SdpState) (args : PCArgs) :
    ((processConstraints h subst s args 0).1).constraints_hash
      = some (h args) := by
  unfold processConstraints
  by_cases hg : (0 = 0 ∨ 0 = s.constraint_starting_block) ∧
      s.constraints_hash = some (h args)
  · rw [if_pos hg]
    exact hg.2
  · rw [if_neg hg]
    simp

theorem processConstraints_guard_hit (h : PCArgs → ℤ) (subst : Word → Word)
    (s : SdpState) (args : PCArgs)
    (hg : s.constraints_hash = some (h args)) :
    processConstraints h subst s args 0 = (s, none) := by
  unfold processConstraints
  rw [if_pos ⟨Or.inl rfl, hg⟩]

/-- C7: calling `process_constraints` a second time with arguments whose
content hash equals that of the previous call is a complete no-op: the
guard returns before any state is touched, so the relaxation — in
particular `n_vars` and the monomial index — is exactly the state left by
the first call. -/
theorem process_constraints_idempotent_on_equal_hash
    (h : PCArgs → ℤ) (subst : Word → Word) (s : SdpState)
    (args args2 : PCArgs) (hh : h args2 = h args) :
    processConstraints h subst
        (processConstraints h subst s args 0).1 args2 0
      = ((processConstraints h subst s args 0).1, none) := by
  apply processConstraints_guard_hit
  rw [processConstraints_hash_set, hh]

/-- A concrete argument bundle (no constraints of any kind). -/
def pcArgsEx : PCArgs := ⟨[], [], [], [], []⟩

/-- A concrete relaxation state after moment-matrix generation: a `1×1`
moment block and one constraint block, one indexed monomial. -/
def sdpStateEx : SdpState :=
  ⟨fun _ _ => 0, 2, [1, 1], 1, [([0], 1)], [], 1, "unsolved", none, [],
    [[[]]]⟩

/-- Witness for C7: at a concrete state and argument bundle, the repeated
call returns the first call's state unchanged with no pending error. -/
theorem process_constraints_idempotent_witness :
    processConstraints (fun _ => 0) (fun w => w)
        (processConstraints (fun _ => 0) (fun w => w) sdpStateEx pcArgsEx
          0).1 pcArgsEx 0
      = ((processConstraints (fun _ => 0) (fun w => w) sdpStateEx pcArgsEx
          0).1, none) :=
  process_constraints_idempotent_on_equal_hash (fun _ => 0) (fun w => w)
    sdpStateEx pcArgsEx pcArgsEx rfl

/-- C8: re-running constraint processing (default mode; the optional
QR-based equality-elimination pass is a separate component outside this
model) clears and rebuilds only rows of `F` at or beyond the cumulative
offset of `constraint_starting_block`: every row of `F` belonging to the
moment-matrix blocks is left unchanged, and the monomial index built during
moment-matrix assembly is not touched at all. -/
theorem process_constraints_preserves_moment_rows
    (h : PCArgs → ℤ) (subst : Word → Word) (s : SdpState) (args : PCArgs) :
    ((processConstraints h subst s args 0).1).monomial_index
      = s.monomial_index ∧
    (∀ r c : ℕ,
      r < rowOffsetUpTo s.block_struct s.constraint_starting_block →
      ((processConstraints h subst s args 0).1).F r c = s.F r c) := by
  by_cases hg : (0 = 0 ∨ 0 = s.constraint_starting_block) ∧
      s.constraints_hash = some (h args)
  · rw [processConstraints_guard_hit h subst s args hg.2]
    exact ⟨rfl, fun r c _ => rfl⟩
  · unfold processConstraints
    rw [if_neg hg]
    constructor
    · simp
    · intro r c hr
      simp
      rw [processIneqsAux_frame subst s.moment_substitutions s.monomial_index
        s.block_struct s.localizing_monomial_sets s.constraint_starting_block
        (buildConstraints args) (s.constraint_starting_block + 1) _ r c
        (le_refl _) hr]
      unfold wipeF
      have hno : ¬ (rowOffsetUpTo s.block_struct s.constraint_starting_block
          ≤ r ∧ r < s.Frows) := fun hcon => absurd hcon.1 (not_le.mpr hr)
      simp [hno]

/-- Witness for C8: at the concrete state, re-running constraint
processing leaves the moment-matrix row `0` and the monomial index
untouched. -/
theorem process_constraints_preserves_moment_rows_witness :
    ((processConstraints (fun _ => 1) (fun w => w) sdpStateEx pcArgsEx
        0).1).monomial_index = sdpStateEx.monomial_index ∧
    ((processConstraints (fun _ => 1) (fun w => w) sdpStateEx pcArgsEx
        0).1).F 0 0 = sdpStateEx.F 0 0 := by
  have hth := process_constraints_preserves_moment_rows (fun _ => 1)
    (fun w => w) sdpStateEx pcArgsEx
  exact ⟨hth.1, hth.2 0 0 (by decide)⟩

/-- Embedding of `SdpRelaxation.__getitem__` (sdp_relaxation.py, lines
1041-1055): an index that is not a SymPy expression raises, a relaxation
whose status is `"unsolved"` raises, and otherwise the value extraction is
delegated (`get_xmat_value` lives in the absent `solver_common.py`;
modelled from the spec as a successful unit return, since only the guard
behaviour is at issue). -/
def getitemSdp (indexIsExpr : Bool) (status : String) : Except String Unit :=
  if ¬ indexIsExpr then .error "Not a monomial or polynomial!"
  else if status = "unsolved" then .error "SDP relaxation is not solved yet!"
  else .ok ()

/-- C10: indexing a relaxation raises whenever the index is not a SymPy
expression, raises whenever the status is `"unsolved"`, and returns a
value exactly when the index is an expression and the relaxation has been
solved (status differs from `"unsolved"`). -/
theorem getitem_requires_expression_and_solved
    (indexIsExpr : Bool) (status : String) :
    (indexIsExpr = false →
      getitemSdp indexIsExpr status = .error "Not a monomial or polynomial!") ∧
    (indexIsExpr = true → status = "unsolved" →
      getitemSdp indexIsExpr status
        = .error "SDP relaxation is not solved yet!") ∧
    (getitemSdp indexIsExpr status = .ok ()
      ↔ (indexIsExpr = true ∧ status ≠ "unsolved")) := by
  refine ⟨?_, ?_, ?_⟩
  · intro hf
    simp [getitemSdp, hf]
  · intro ht hs
    simp [getitemSdp, ht, hs]
  · constructor
    · intro hok
      cases hb : indexIsExpr with
      | false => rw [hb] at hok; simp [getitemSdp] at hok
      | true =>
        refine ⟨rfl, ?_⟩
        intro hs
        rw [hb] at hok
        simp [getitemSdp, hs] at hok
    · intro hcond
      simp [getitemSdp, hcond.1, hcond.2]

/-- Witness for C10: a non-expression index raises, an unsolved status
raises, and an expression index on an optimally solved relaxation returns
a value. -/
theorem getitem_requires_expression_and_solved_witness :
    getitemSdp false "optimal" = .error "Not a monomial or polynomial!" ∧
    getitemSdp true "unsolved" = .error "SDP relaxation is not solved yet!" ∧
    getitemSdp true "optimal" = .ok () := by
  refine ⟨(getitem_requires_expression_and_solved false "optimal").1 rfl,
    (getitem_requires_expression_and_solved true "unsolved").2.1 rfl rfl,
    ((getitem_requires_expression_and_solved true "optimal").2.2).mpr
      ⟨rfl, by decide⟩⟩

/-- The id-assignment trace is exactly what the push loop does to the
`(monomial_index, n_vars)` part of the state: pushing a list of
moment-matrix entries whose computed monomials are symbolic (nonempty
words) leaves the same monomial index and the same `n_vars` as the trace
of their words. -/
theorem pushAll_index_eq_momentIds (normalized : Bool)
    (msub : List (Word × ℚ)) (row_offset N lenB : ℕ) :
    ∀ (es : List MomentEntry) (s : PushState),
      (∀ e ∈ es, e.word ≠ []) →
      (pushAll normalized msub row_offset N lenB s es).index
          = (momentIds msub s.index s.n_vars
              (es.map (fun e => e.word))).2.1 ∧
      (pushAll normalized msub row_offset N lenB s es).n_vars
          = (momentIds msub s.index s.n_vars
              (es.map (fun e => e.word))).2.2 := by
  intro es
  induction es with
  | nil => intro s _; exact ⟨rfl, rfl⟩
  | cons e rest ih =>
    intro s hw
    have hwne : e.word ≠ [] := hw e (List.mem_cons_self _ _)
    have hstep : pushMonomial normalized msub s (entryExpr e.word)
        row_offset e.rowA e.columnA N e.rowB e.columnB lenB
        = pushMonoT msub s 1 e.word
            (rowIndex row_offset e.rowA e.columnA N e.rowB e.columnB lenB) := by
      simp [pushMonomial, entryExpr, hwne]
    have hpush : pushAll normalized msub row_offset N lenB s (e :: rest)
        = pushAll normalized msub row_offset N lenB
            (pushMonoT msub s 1 e.word
              (rowIndex row_offset e.rowA e.columnA N e.rowB e.columnB lenB))
            rest := by
      show pushAll normalized msub row_offset N lenB
          (pushMonomial normalized msub s (entryExpr e.word)
            row_offset e.rowA e.columnA N e.rowB e.columnB lenB) rest = _
      rw [hstep]
    rw [hpush]
    have hrest := ih (pushMonoT msub s 1 e.word
      (rowIndex row_offset e.rowA e.columnA N e.rowB e.columnB lenB))
      (fun q hq => hw q (List.mem_cons_of_mem _ hq))
    simp only [pushMonoT] at hrest
    simp only [List.map_cons, momentIds]
    exact hrest
